import Mathlib

/-!
Shallow embedding of `conda_env/env.py` (environment specification engine).

Python (ordered) dictionaries are modelled as association lists
`List (String × α)`: assignment to an existing key keeps its position,
assignment to a fresh key appends it at the end, exactly like CPython dicts.
The YAML codec (`conda/common/serialize.py`) is an external collaborator
whose round-trip contract is assumed, so documents are modelled directly as
ordered mappings (`Doc`) and `to_yaml`/`from_yaml` compose through them.
-/

set_option autoImplicit false

/-- Ordered key/value mapping, the model of a Python `dict`/`OrderedDict`. -/
abbrev KVL (α : Type) := List (String × α)

/-- First value bound to `k` (Python `d[k]` / `d.get(k)`). -/
def kvLookup {α : Type} (k : String) : KVL α → Option α
  | [] => none
  | (k', v) :: rest => if k' = k then some v else kvLookup k rest

/-- Python `d[k] = v`: overwrite in place if present, else append at the end. -/
def kvSet {α : Type} (k : String) (v : α) : KVL α → KVL α
  | [] => [(k, v)]
  | (k', v') :: rest => if k' = k then (k, v) :: rest else (k', v') :: kvSet k v rest

/-- Python `del d[k]` (first binding removed). -/
def kvErase {α : Type} (k : String) : KVL α → KVL α
  | [] => []
  | (k', v') :: rest => if k' = k then rest else (k', v') :: kvErase k rest

/-- Update the value at `k` in place; no-op when `k` is absent. -/
def kvModify {α : Type} (k : String) (f : α → α) : KVL α → KVL α
  | [] => []
  | (k', v') :: rest => if k' = k then (k', f v') :: rest else (k', v') :: kvModify k f rest

/-- The key sequence of the mapping. -/
def kvKeys {α : Type} (d : KVL α) : List String := d.map Prod.fst

/-- Python `d.update(m)`: assign every pair of `m` in order. -/
def kvSetPairs {α : Type} (m : KVL α) (d : KVL α) : KVL α :=
  m.foldl (fun d kv => kvSet kv.1 kv.2 d) d

/-- A dependency entry of the `raw` sequence: a plain requirement string or a
single YAML mapping `{category: [requirements...]}` (possibly multi-key). -/
inductive DepEntry : Type
  | str (s : String)
  | map (m : KVL (List String))
deriving DecidableEq

/-- Split a character list on each occurrence of the two-character separator
`::` (the behaviour of Python `s.split("::")`). -/
def splitColons (acc : List Char) : List Char → List (List Char)
  | [] => [acc.reverse]
  | ':' :: ':' :: rest => acc.reverse :: splitColons [] rest
  | c :: rest => splitColons (c :: acc) rest

/-- Python 3's `\s` for str patterns: the Unicode whitespace set
(`str.isspace()`) — ASCII whitespace U+0009-U+000D and U+0020, the separators
U+001C-U+001F, NEL U+0085, NBSP U+00A0, U+1680, U+2000-U+200A, U+2028,
U+2029, U+202F, U+205F and U+3000. -/
def isPySpace (c : Char) : Bool :=
  (0x09 ≤ c.toNat && c.toNat ≤ 0x0d) || c.toNat = 0x20 ||
  (0x1c ≤ c.toNat && c.toNat ≤ 0x1f) || c.toNat = 0x85 || c.toNat = 0xa0 ||
  c.toNat = 0x1680 || (0x2000 ≤ c.toNat && c.toNat ≤ 0x200a) ||
  c.toNat = 0x2028 || c.toNat = 0x2029 || c.toNat = 0x202f ||
  c.toNat = 0x205f || c.toNat = 0x3000

/-- The characters matched by `re.compile(r"[<>~\s=]")`, the `depsplit`
pattern of `validate_keys`. -/
def isDepSplitChar (c : Char) : Bool :=
  c = '<' || c = '>' || c = '~' || c = '=' || isPySpace c

/-- `depsplit.split(dep)[0]`: the text before the first delimiter character. -/
def firstToken (s : String) : List Char :=
  s.data.takeWhile (fun c => !isDepSplitChar c)

/-- `is_pip` from `validate_keys`: `'pip' in depsplit.split(dep)[0].split('::')`. -/
def is_pip (dep : String) : Bool :=
  (splitColons [] (firstToken dep)).contains "pip".data

/-- Modelled from the spec: `conda.cli.common.arg2spec` is not under `src/`.
The spec only calls it "a caller-supplied spec-normalization function" and its
examples show plain package names passing through unchanged, so it is modelled
as the identity on requirement strings. -/
def arg2spec (s : String) : String := s

/-- Modelled from the spec: `MatchSpec(s).name` (`conda.models.match_spec`, not
under `src/`) returns the package name parsed from a requirement string; it is
modelled as the text before the first version/comparison delimiter with any
`channel::` qualifier stripped, which agrees with it on plain names. -/
def matchSpecName (s : String) : String :=
  let parts := splitColons [] (firstToken s)
  ⟨(parts.getLast?).getD (firstToken s)⟩

/-- One iteration of the main loop of `Dependencies.parse`: a mapping entry is
`self.update(line)`, a string entry is `self['conda'].append(arg2spec(line))`
(`'conda'` is always present there, so the no-op branch of `kvModify` is
unreachable from `parse`). -/
def depStep (d : KVL (List String)) : DepEntry → KVL (List String)
  | .str s => kvModify "conda" (fun v => v ++ [arg2spec s]) d
  | .map m => kvSetPairs m d

/-- The main loop of `Dependencies.parse` over the raw entries. -/
def runDeps (es : List DepEntry) (d : KVL (List String)) : KVL (List String) :=
  es.foldl depStep d

/-- The trailing `pip` fix-up of `Dependencies.parse`: when the `'pip'` key is
present, an empty `'pip'` sequence is deleted, and then (in either case) the
literal `'pip'` is appended to `'conda'` unless some conda requirement's
parsed name is already `pip`. -/
def pipFix (d : KVL (List String)) : KVL (List String) :=
  if "pip" ∈ kvKeys d then
    let d1 := if kvLookup "pip" d = some [] then kvErase "pip" d else d
    if ((kvLookup "conda" d1).getD []).any (fun s => matchSpecName s == "pip") then d1
    else kvModify "conda" (fun v => v ++ ["pip"]) d1
  else d

/-- `Dependencies.parse`, as a state transformer on the ordered mapping the
object holds (`d0` is the mapping before the call): when `raw` is `None` or
empty the mapping is left untouched, otherwise `'conda'` is reset to `[]`,
the raw entries are folded in order, and the `pip` fix-up runs. -/
def Dependencies.parse (raw : Option (List DepEntry)) (d0 : KVL (List String)) :
    KVL (List String) :=
  match raw with
  | none => d0
  | some [] => d0
  | some (e :: es) => pipFix (runDeps (e :: es) (kvSet "conda" [] d0))

/-- The `Dependencies` object: the literal `raw` sequence plus the categorized
ordered mapping derived from it (the `OrderedDict` contents). -/
structure Dependencies : Type where
  raw : Option (List DepEntry)
  parsed : KVL (List String)
deriving DecidableEq

/-- `Dependencies.__init__`: store `raw` and parse into an empty mapping. -/
def Dependencies.ofRaw (raw : Option (List DepEntry)) : Dependencies :=
  { raw := raw, parsed := Dependencies.parse raw [] }

/-- Free-form `variables` mapping (opaque string-to-string, order preserved). -/
abbrev Vars := List (String × String)

/-- A value of a serialized document node (the YAML scalar/sequence/mapping
shapes this slice produces and consumes). -/
inductive DocVal : Type
  | null
  | str (s : String)
  | strList (l : List String)
  | depList (l : List DepEntry)
  | varMap (m : Vars)
deriving DecidableEq

/-- A parsed document: an ordered top-level mapping. -/
abbrev Doc := KVL DocVal

/-- The `Environment` object (`prefix` is spelled `pfx`: `prefix` is a Lean
keyword). `channels` is already normalized to a list by `__init__`. -/
structure Environment : Type where
  name : Option String
  filename : Option String
  pfx : Option String
  channels : List String
  dependencies : Dependencies
  vars : Option Vars
deriving DecidableEq

/-- `Environment.__init__` with its Python parameter order
`(name, filename, channels, dependencies, prefix, variables)`:
`channels=None` becomes `[]` and `dependencies` is wrapped in a
`Dependencies` object. -/
def Environment.make (name filename : Option String) (channels : Option (List String))
    (dependencies : Option (List DepEntry)) (pfx : Option String)
    (vars : Option Vars) : Environment :=
  { name := name, filename := filename, pfx := pfx,
    channels := channels.getD [],
    dependencies := Dependencies.ofRaw dependencies,
    vars := vars }

/-- `unique` (generator with a `seen` set), specialised to strings. -/
def uniqueAux (seen : List String) : List String → List String
  | [] => []
  | x :: xs => if x ∈ seen then uniqueAux seen xs else x :: uniqueAux (x :: seen) xs

/-- `unique(seq)`: only the first occurrence of each element is kept. -/
def unique (seq : List String) : List String := uniqueAux [] seq

/-- `Environment.add_channels`: dedup of new channels followed by existing. -/
def Environment.add_channels (e : Environment) (channels : List String) : Environment :=
  { e with channels := unique (channels ++ e.channels) }

/-- `Environment.remove_channels`. -/
def Environment.remove_channels (e : Environment) : Environment :=
  { e with channels := [] }

/-- `Environment.to_dict`: the minimal ordered document, in the fixed key
order `name, channels, dependencies, variables, prefix`; `name` is emitted
unconditionally, the rest only when truthy. -/
def Environment.to_dict (e : Environment) : Doc :=
  [("name", match e.name with | some s => DocVal.str s | none => DocVal.null)]
  ++ (if e.channels = [] then [] else [("channels", DocVal.strList e.channels)])
  ++ (if e.dependencies.parsed = [] then []
      else [("dependencies", match e.dependencies.raw with
                             | some l => DocVal.depList l
                             | none => DocVal.null)])
  ++ (match e.vars with
      | some m => if m = [] then [] else [("variables", DocVal.varMap m)]
      | none => [])
  ++ (match e.pfx with
      | some p => if p = "" then [] else [("prefix", DocVal.str p)]
      | none => [])

/-- The allow-list of top-level document keys. -/
def VALID_KEYS : List String := ["name", "dependencies", "prefix", "channels", "variables"]

/-- `data.get('dependencies', [])` coerced to the entry list shape. -/
def getDeps (data : Doc) : List DepEntry :=
  match kvLookup "dependencies" data with
  | some (DocVal.depList l) => l
  | _ => []

/-- The trigger of the pip auto-fix in `validate_keys`: some dependency entry
is a mapping containing the key `'pip'` while no plain entry lists pip. -/
def pipTrigger (deps : List DepEntry) : Bool :=
  (deps.any (fun d => match d with
                      | .map m => "pip" ∈ kvKeys m
                      | .str _ => false))
  && !(deps.any (fun d => match d with
                          | .str s => is_pip s
                          | .map _ => false))

/-- `validate_keys` (the warning printing is an observable side effect only):
strip unknown top-level keys, then, when a pip mapping entry appears without
pip listed as a plain dependency, insert the literal `'pip'` at position 0 of
the dependency sequence. -/
def validate_keys (data : Doc) : Doc :=
  let new_data := data.filter (fun kv => kv.1 ∈ VALID_KEYS)
  if pipTrigger (getDeps data) then
    kvModify "dependencies"
      (fun v => match v with
                | DocVal.depList l => DocVal.depList (DepEntry.str "pip" :: l)
                | v => v) new_data
  else new_data

/-- `Environment(**data)`: read each constructor argument out of the parsed
document (absent or differently-shaped keys give the `None` default). -/
def Environment.ofDoc (data : Doc) : Environment :=
  Environment.make
    (match kvLookup "name" data with | some (DocVal.str s) => some s | _ => none)
    (match kvLookup "filename" data with | some (DocVal.str s) => some s | _ => none)
    (match kvLookup "channels" data with | some (DocVal.strList l) => some l | _ => none)
    (match kvLookup "dependencies" data with | some (DocVal.depList l) => some l | _ => none)
    (match kvLookup "prefix" data with | some (DocVal.str s) => some s | _ => none)
    (match kvLookup "variables" data with | some (DocVal.varMap m) => some m | _ => none)

/-- The document produced inside `from_yaml` on a non-empty parse result:
key validation followed by the merge of every caller override pair
(`for key, value in kwargs.items(): data[key] = value`). -/
def fromYamlData (doc : Doc) (kwargs : Doc) : Doc :=
  kwargs.foldl (fun d kv => kvSet kv.1 kv.2 d) (validate_keys doc)

/-- `from_yaml` after the YAML text layer (the safe codec's round-trip
contract is assumed, so the function is stated on parsed documents). -/
def from_yaml (doc : Doc) (kwargs : Doc) : Environment :=
  Environment.ofDoc (fromYamlData doc kwargs)

/-- The `PackageType` enumeration values consumed by `from_environment`
(`conda.models.enums.PackageType`; only membership matters here). -/
inductive PackageType : Type
  | noarch_generic
  | noarch_python
  | virtual_python_wheel
  | virtual_python_egg_manageable
  | virtual_python_egg_unmanageable
  | shadow_python_egg_link
deriving DecidableEq

/-- An installed package record as consumed by `from_environment`: the fields
read from a `PrefixRecord` (`package_type` is `None` for ordinary conda
packages, `channel_name` is `prec.channel.canonical_name`). -/
structure PackageRecord : Type where
  name : String
  version : String
  build : String
  package_type : Option PackageType
  channel_name : String
deriving DecidableEq

/-- Stable insertion of a record into a name-sorted list: the new element
(earlier in the original order) goes in front of the first name that is not
strictly smaller, i.e. before any equal names. -/
def insertByName (x : PackageRecord) : List PackageRecord → List PackageRecord
  | [] => [x]
  | y :: ys => if y.name < x.name then y :: insertByName x ys else x :: y :: ys

/-- `sorted(..., key=lambda x: x.name)`: a stable sort by package name. -/
def sortByName : List PackageRecord → List PackageRecord
  | [] => []
  | x :: xs => insertByName x (sortByName xs)

/-- `groupby(package_type)` followed by `concatv` of the conda-side groups:
untyped records, then `NOARCH_GENERIC`, then `NOARCH_PYTHON`, each group in
its original order. -/
def condaGroup (precs : List PackageRecord) : List PackageRecord :=
  precs.filter (fun r => r.package_type = none)
  ++ precs.filter (fun r => r.package_type = some PackageType.noarch_generic)
  ++ precs.filter (fun r => r.package_type = some PackageType.noarch_python)

/-- `concatv` of the pip-side groups: `VIRTUAL_PYTHON_WHEEL`, then
`VIRTUAL_PYTHON_EGG_MANAGEABLE`, then `VIRTUAL_PYTHON_EGG_UNMANAGEABLE`. -/
def pipGroup (precs : List PackageRecord) : List PackageRecord :=
  precs.filter (fun r => r.package_type = some PackageType.virtual_python_wheel)
  ++ precs.filter (fun r => r.package_type = some PackageType.virtual_python_egg_manageable)
  ++ precs.filter (fun r => r.package_type = some PackageType.virtual_python_egg_unmanageable)

/-- `'='.join((a.name, a.version))` or `'='.join((a.name, a.version, a.build))`
depending on `no_builds`. -/
def renderConda (no_builds : Bool) (a : PackageRecord) : String :=
  if no_builds then a.name ++ "=" ++ a.version
  else a.name ++ "=" ++ a.version ++ "=" ++ a.build

/-- `"%s==%s" % (a.name, a.version)`: the pip rendering. -/
def renderPip (a : PackageRecord) : String :=
  a.name ++ "==" ++ a.version

/-- `from_environment`: the live-state reconciler.  The collaborator outputs
are parameters: `precs` is `tuple(PrefixGraph(pd.iter_records()).graph)`,
`context_channels` is `list(context.channels)`, `variables` is
`pd.get_environment_env_vars()` and `history_deps` is the rendered
`History(prefix).get_requested_specs_map()` values (used only when
`from_history` is set). -/
def from_environment (name : Option String) (pfx : String)
    (precs : List PackageRecord) (no_builds : Bool) (ignore_channels : Bool)
    (context_channels : List String) (variables_env : Vars)
    (from_history : Bool) (history_deps : List String) : Environment :=
  if from_history then
    Environment.make name none (some context_channels)
      (some (history_deps.map DepEntry.str)) (some pfx) (some variables_env)
  else
    let conda_precs := sortByName (condaGroup precs)
    let pip_precs := sortByName (pipGroup precs)
    let dependencies := conda_precs.map (fun a => DepEntry.str (renderConda no_builds a))
    let dependencies :=
      if pip_precs = [] then dependencies
      else dependencies ++ [DepEntry.map [("pip", pip_precs.map renderPip)]]
    let channels :=
      if ignore_channels then context_channels
      else conda_precs.foldl
        (fun chs prec => if prec.channel_name ∈ chs then chs else prec.channel_name :: chs)
        context_channels
    Environment.make name none (some channels) (some dependencies) (some pfx)
      (some variables_env)

/-- The exceptions that matter to `load_from_directory`:
`EnvironmentFileNotFound` (carrying the offending filename) is caught per
candidate, anything else propagates. -/
inductive LoadExc : Type
  | fileNotFound (fname : String)
  | other (msg : String)
deriving DecidableEq

/-- A directory path, as its list of components (the root is `[]`, and
`os.path.dirname` of the root is itself). -/
abbrev DirPath := List String

/-- An abstract filesystem for the loader: `none` means no file at that path,
`some r` the parse outcome of an existing file — an environment, or the
message of a propagating exception (empty file, parse error, ...). -/
abbrev FileSys (α : Type) := List String → Option (Except String α)

/-- `from_file(path)` restricted to local paths: missing files raise
`EnvironmentFileNotFound(filename)`, existing files yield their parse
outcome (never `fileNotFound`). -/
def from_file {α : Type} (fs : FileSys α) (path : List String) : Except LoadExc α :=
  match fs path with
  | none => Except.error (LoadExc.fileNotFound (String.intercalate "/" path))
  | some (Except.ok a) => Except.ok a
  | some (Except.error msg) => Except.error (LoadExc.other msg)

/-- The body of the `for f in files` loop of `load_from_directory` on one
directory: try `environment.yml` then `environment.yaml`; `none` when both
raised `EnvironmentFileNotFound`, otherwise the first other outcome (a
success returns, any other error propagates). -/
def tryDirFiles {α : Type} (fs : FileSys α) (dir : DirPath) : Option (Except LoadExc α) :=
  match from_file fs (dir ++ ["environment.yml"]) with
  | Except.error (LoadExc.fileNotFound _) =>
    match from_file fs (dir ++ ["environment.yaml"]) with
    | Except.error (LoadExc.fileNotFound _) => none
    | r => some r
  | r => some r

/-- `load_from_directory(directory)`: walk up the ancestor chain trying the
two default filenames in each directory; at the root (its own parent) raise
`EnvironmentFileNotFound('environment.yml')`. -/
def load_from_directory {α : Type} (fs : FileSys α) (dir : DirPath) : Except LoadExc α :=
  match tryDirFiles fs dir with
  | some r => r
  | none =>
    if dir = [] then Except.error (LoadExc.fileNotFound "environment.yml")
    else load_from_directory fs dir.dropLast
termination_by dir.length
decreasing_by
  cases dir with
  | nil => simp_all
  | cons a l => simp
/-! ### Basic lemmas about the ordered-mapping operations -/

@[simp] theorem kvKeys_nil {α : Type} : kvKeys ([] : KVL α) = [] := rfl

@[simp] theorem kvKeys_cons {α : Type} (k : String) (v : α) (d : KVL α) :
    kvKeys ((k, v) :: d) = k :: kvKeys d := rfl

theorem kvLookup_eq_none_iff {α : Type} (k : String) (d : KVL α) :
    kvLookup k d = none ↔ k ∉ kvKeys d := by
  induction d with
  | nil => simp [kvLookup]
  | cons kv rest ih =>
    obtain ⟨k', v⟩ := kv
    by_cases h : k' = k
    · subst h; simp [kvLookup]
    · simp [kvLookup, h, ih, Ne.symm h]

theorem kvLookup_set_self {α : Type} (k : String) (v : α) (d : KVL α) :
    kvLookup k (kvSet k v d) = some v := by
  induction d with
  | nil => simp [kvLookup, kvSet]
  | cons kv rest ih =>
    obtain ⟨k', v'⟩ := kv
    by_cases h : k' = k <;> simp [kvLookup, kvSet, h, ih]

theorem kvLookup_set_ne {α : Type} {j k : String} (hne : j ≠ k) (v : α) (d : KVL α) :
    kvLookup j (kvSet k v d) = kvLookup j d := by
  induction d with
  | nil => simp [kvLookup, kvSet, Ne.symm hne]
  | cons kv rest ih =>
    obtain ⟨k', v'⟩ := kv
    by_cases h : k' = k
    · subst h; simp [kvLookup, kvSet, Ne.symm hne]
    · simp [kvLookup, kvSet, h, ih]

theorem kvKeys_set {α : Type} (k : String) (v : α) (d : KVL α) :
    kvKeys (kvSet k v d) = if k ∈ kvKeys d then kvKeys d else kvKeys d ++ [k] := by
  induction d with
  | nil => simp [kvSet]
  | cons kv rest ih =>
    obtain ⟨k', v'⟩ := kv
    by_cases h : k' = k
    · subst h; simp [kvSet]
    · by_cases hm : k ∈ kvKeys rest <;>
        simp [kvSet, h, Ne.symm h, hm, ih]

theorem kvKeys_modify {α : Type} (k : String) (f : α → α) (d : KVL α) :
    kvKeys (kvModify k f d) = kvKeys d := by
  induction d with
  | nil => rfl
  | cons kv rest ih =>
    obtain ⟨k', v'⟩ := kv
    by_cases h : k' = k <;> simp [kvModify, h, ih]

theorem kvLookup_modify_self {α : Type} (k : String) (f : α → α) (d : KVL α) :
    kvLookup k (kvModify k f d) = (kvLookup k d).map f := by
  induction d with
  | nil => rfl
  | cons kv rest ih =>
    obtain ⟨k', v'⟩ := kv
    by_cases h : k' = k <;> simp [kvModify, kvLookup, h, ih]

theorem kvLookup_modify_ne {α : Type} {j k : String} (hne : j ≠ k) (f : α → α) (d : KVL α) :
    kvLookup j (kvModify k f d) = kvLookup j d := by
  induction d with
  | nil => rfl
  | cons kv rest ih =>
    obtain ⟨k', v'⟩ := kv
    by_cases h : k' = k
    · subst h; simp [kvModify, kvLookup, Ne.symm hne, ih]
    · simp [kvModify, kvLookup, h, ih]

theorem kvLookup_erase_ne {α : Type} {j k : String} (hne : j ≠ k) (d : KVL α) :
    kvLookup j (kvErase k d) = kvLookup j d := by
  induction d with
  | nil => rfl
  | cons kv rest ih =>
    obtain ⟨k', v'⟩ := kv
    by_cases h : k' = k
    · subst h; simp [kvErase, kvLookup, Ne.symm hne]
    · simp [kvErase, kvLookup, h, ih]

theorem kvLookup_erase_self {α : Type} (k : String) (d : KVL α)
    (hnd : (kvKeys d).Nodup) : kvLookup k (kvErase k d) = none := by
  induction d with
  | nil => rfl
  | cons kv rest ih =>
    obtain ⟨k', v'⟩ := kv
    simp only [kvKeys_cons, List.nodup_cons] at hnd
    by_cases h : k' = k
    · subst h
      simp [kvErase, (kvLookup_eq_none_iff k' rest).2 hnd.1]
    · simp [kvErase, kvLookup, h, ih hnd.2]

theorem kvNodup_set {α : Type} (k : String) (v : α) (d : KVL α)
    (hnd : (kvKeys d).Nodup) : (kvKeys (kvSet k v d)).Nodup := by
  rw [kvKeys_set]
  by_cases h : k ∈ kvKeys d
  · simpa [h] using hnd
  · simp only [h, if_false]
    rw [List.nodup_append]
    refine ⟨hnd, List.nodup_singleton k, fun a ha hak => ?_⟩
    rw [List.mem_singleton] at hak
    exact h (hak ▸ ha)

theorem kvNodup_modify {α : Type} (k : String) (f : α → α) (d : KVL α)
    (hnd : (kvKeys d).Nodup) : (kvKeys (kvModify k f d)).Nodup := by
  rw [kvKeys_modify]; exact hnd

/-- Modelled from the claim's words: the deduplicated concatenation keeping
the first occurrence of each duplicate. -/
def dedupFirst : List String → List String
  | [] => []
  | x :: xs => x :: dedupFirst (xs.filter (fun y => y ≠ x))
termination_by l => l.length
decreasing_by
  exact Nat.lt_succ_of_le (List.length_filter_le _ _)

theorem uniqueAux_eq_dedupFirst (l : List String) :
    ∀ seen : List String, uniqueAux seen l = dedupFirst (l.filter (fun y => y ∉ seen)) := by
  induction l with
  | nil => intro seen; simp [uniqueAux, dedupFirst]
  | cons x xs ih =>
    intro seen
    by_cases h : x ∈ seen
    · simp [uniqueAux, h, ih]
    · simp only [uniqueAux, if_neg h]
      have hfc : List.filter (fun y => decide (y ∉ seen)) (x :: xs)
          = x :: List.filter (fun y => decide (y ∉ seen)) xs := by
        simp [List.filter_cons, h]
      rw [hfc]
      simp only [dedupFirst]
      rw [ih (x :: seen)]
      rw [List.filter_filter]
      have hsame : List.filter (fun y => decide (y ∉ x :: seen)) xs
          = List.filter (fun a => decide (a ≠ x) && decide (a ∉ seen)) xs := by
        apply List.filter_congr
        intro y _
        by_cases hy : y = x <;> by_cases hs : y ∈ seen <;> simp [hy, hs]
      rw [hsame]

/-- `unique` agrees with the claim-side first-occurrence dedup. -/
theorem unique_eq_dedupFirst (l : List String) : unique l = dedupFirst l := by
  rw [unique, uniqueAux_eq_dedupFirst]
  congr 1
  simp

/-- C8: `add_channels(new)` replaces the channel list with the deduplicated
concatenation of `new` followed by the existing channels, keeping the first
occurrence of each duplicate; in particular `add_channels(["x","y"])` on a
spec holding `["y","z"]` yields `["x","y","z"]`. -/
theorem claim_C8 :
    (∀ (e : Environment) (channels : List String),
       (e.add_channels channels).channels = dedupFirst (channels ++ e.channels))
    ∧ ((Environment.make none none (some ["y", "z"]) none none
          none).add_channels ["x", "y"]).channels = ["x", "y", "z"] := by
  constructor
  · intro e channels
    simpa [Environment.add_channels] using unique_eq_dedupFirst (channels ++ e.channels)
  · decide

/-! ### C6: directory search -/

/-- The chain of directories the claim describes: the start directory, then
each ancestor in turn, ending at the filesystem root (whose parent is
itself). -/
def ancestorChain : DirPath → List DirPath
  | [] => [[]]
  | a :: l => (a :: l) :: ancestorChain (a :: l).dropLast
termination_by d => d.length
decreasing_by simp

/-- Modelled from the claim's words: in one directory, the outcome of the
first of the filenames `environment.yml` then `environment.yaml` that has a
file there. -/
def specDirHit {α : Type} (fs : FileSys α) (dir : DirPath) : Option (Except String α) :=
  match fs (dir ++ ["environment.yml"]) with
  | some r => some r
  | none => fs (dir ++ ["environment.yaml"])

/-- Modelled from the claim's words: search the start directory and then each
ancestor in turn; return the first parse outcome found; when no ancestor
yields a file, fail with `EnvironmentFileNotFound` naming `environment.yml`,
the first candidate filename. -/
def searchSpec {α : Type} (fs : FileSys α) (dir : DirPath) : Except LoadExc α :=
  match (ancestorChain dir).findSome? (specDirHit fs) with
  | some (Except.ok a) => Except.ok a
  | some (Except.error msg) => Except.error (LoadExc.other msg)
  | none => Except.error (LoadExc.fileNotFound "environment.yml")

/-- The per-directory loop of the code agrees with the claim's
first-existing-file description. -/
theorem tryDirFiles_eq_specDirHit {α : Type} (fs : FileSys α) (dir : DirPath) :
    tryDirFiles fs dir = (specDirHit fs dir).map
      (fun r => match r with
                | Except.ok a => Except.ok a
                | Except.error msg => Except.error (LoadExc.other msg)) := by
  unfold tryDirFiles specDirHit from_file
  cases h1 : fs (dir ++ ["environment.yml"]) with
  | some r1 => cases r1 <;> simp
  | none =>
    cases h2 : fs (dir ++ ["environment.yaml"]) with
    | some r2 => cases r2 <;> simp
    | none => simp

theorem load_from_directory_aux {α : Type} (fs : FileSys α) :
    ∀ (n : Nat) (dir : DirPath), dir.length ≤ n →
      load_from_directory fs dir = searchSpec fs dir := by
  intro n
  induction n with
  | zero =>
    intro dir hlen
    have hdir : dir = [] := List.eq_nil_of_length_eq_zero (Nat.le_zero.mp hlen)
    subst hdir
    rw [load_from_directory, searchSpec, ancestorChain,
        List.findSome?_cons, tryDirFiles_eq_specDirHit]
    cases h : specDirHit fs [] with
    | none => simp
    | some r => cases r <;> simp
  | succ n ihn =>
    intro dir hlen
    cases dir with
    | nil =>
      rw [load_from_directory, searchSpec, ancestorChain,
          List.findSome?_cons, tryDirFiles_eq_specDirHit]
      cases h : specDirHit fs [] with
      | none => simp
      | some r => cases r <;> simp
    | cons a l =>
      rw [load_from_directory, searchSpec, ancestorChain,
          List.findSome?_cons, tryDirFiles_eq_specDirHit]
      cases h : specDirHit fs (a :: l) with
      | some r => cases r <;> simp
      | none =>
        have hrec := ihn ((a :: l).dropLast)
          (by simp only [List.dropLast_cons_of_ne_nil, List.length_dropLast]
              simpa using Nat.le_of_succ_le_succ (by simpa using hlen))
        rw [if_neg (by simp), hrec, searchSpec]
        simp

/-- C6: `load_from_directory(dir)` tries, in each directory starting at `dir`
and then each ancestor in turn, the filenames `environment.yml` then
`environment.yaml`, returning the outcome of the first file found; if no
ancestor yields a match it fails with `EnvironmentFileNotFound` naming
`environment.yml`, the search terminating at the filesystem root, where a
directory's parent equals itself. -/
theorem claim_C6 {α : Type} (fs : FileSys α) (dir : DirPath) :
    load_from_directory fs dir = searchSpec fs dir :=
  load_from_directory_aux fs dir.length dir (Nat.le_refl _)

/-! ### Key-membership facts about `parse` -/

/-- Python-falsy document values: `None`, `''`, `[]`, `{}`. -/
def DocVal.isEmptyVal : DocVal → Bool
  | .null => true
  | .str s => s = ""
  | .strList l => l = []
  | .depList l => l = []
  | .varMap m => m = []

/-- C2 counterexample: the claim says every key of `to_dict` (including
`name`) appears only when its value is present and non-empty, but a
default-constructed Environment serializes to `{'name': None}`: the `name`
key is always emitted, even when absent. -/
theorem claim_C2_counterexample :
    ("name", DocVal.null) ∈ (Environment.make none none none none none
      none).to_dict
    ∧ DocVal.isEmptyVal DocVal.null = true := by
  constructor
  · decide
  · rfl

/-- C2 (amended): `to_dict()` always contains the `name` key (even when the
name is absent); every key other than `name` appears only with a present,
non-empty value. -/
theorem claim_C2 (name filename : Option String) (channels : Option (List String))
    (deps : Option (List DepEntry)) (pfx : Option String) (vars : Option Vars) :
    (∀ k v, (k, v) ∈ (Environment.make name filename channels deps pfx vars).to_dict →
       k ≠ "name" → v.isEmptyVal = false)
    ∧ "name" ∈ kvKeys (Environment.make name filename channels deps pfx vars).to_dict := by
  constructor
  · intro k v hmem hk
    rw [Environment.to_dict] at hmem
    simp only [List.mem_append] at hmem
    rcases hmem with ((((h1 | h2) | h3) | h4) | h5)
    · simp only [List.mem_singleton, Prod.mk.injEq] at h1
      exact absurd h1.1 hk
    · by_cases hc : (Environment.make name filename channels deps pfx vars).channels = []
      · simp [hc] at h2
      · simp only [if_neg hc, List.mem_singleton, Prod.mk.injEq] at h2
        rw [h2.2, DocVal.isEmptyVal]
        simpa using hc
    · by_cases hd : (Environment.make name filename channels deps pfx
          vars).dependencies.parsed = []
      · simp [hd] at h3
      · simp only [if_neg hd, List.mem_singleton, Prod.mk.injEq] at h3
        cases deps with
        | none => exact (hd (by simp [Environment.make, Dependencies.ofRaw,
            Dependencies.parse])).elim
        | some l =>
          cases l with
          | nil => exact (hd (by simp [Environment.make, Dependencies.ofRaw,
              Dependencies.parse])).elim
          | cons e es =>
            rw [h3.2]
            simp [Environment.make, Dependencies.ofRaw, DocVal.isEmptyVal]
    · rcases hv : (Environment.make name filename channels deps pfx vars).vars with _ | m
      · rw [hv] at h4; simp at h4
      · rw [hv] at h4
        by_cases hm0 : m = []
        · simp [hm0] at h4
        · simp only [if_neg hm0, List.mem_singleton, Prod.mk.injEq] at h4
          rw [h4.2, DocVal.isEmptyVal]
          simpa using hm0
    · rcases hp : (Environment.make name filename channels deps pfx vars).pfx with _ | p
      · rw [hp] at h5; simp at h5
      · rw [hp] at h5
        by_cases hp0 : p = ""
        · simp [hp0] at h5
        · simp only [if_neg hp0, List.mem_singleton, Prod.mk.injEq] at h5
          rw [h5.2, DocVal.isEmptyVal]
          simpa using hp0
  · rw [Environment.to_dict]
    cases name <;> simp

/-- Witness for C2 at a concrete spec: the emitted `channels` value is
non-empty. -/
theorem claim_C2_witness :
    DocVal.isEmptyVal (DocVal.strList ["c"]) = false :=
  (claim_C2 (some "n") none (some ["c"]) none none none).1 "channels"
    (DocVal.strList ["c"]) (by decide) (by decide)

/-! ### C3: implicit pip insertion -/

/-- C3 counterexample: loading `{dependencies: [numpy, {pip: ["flask"]}]}`
does not give the conda sequence `["numpy", "pip"]` claimed: `validate_keys`
inserts the sentinel at position 0 of the raw sequence, so `pip` comes
first. -/
theorem claim_C3_counterexample :
    ¬ (kvLookup "conda"
         (from_yaml [("dependencies", DocVal.depList
            [DepEntry.str "numpy", DepEntry.map [("pip", ["flask"])]])]
            []).dependencies.parsed
       = some ["numpy", "pip"]) := by
  decide

/-- C3 (amended): loading `{dependencies: [numpy, {pip: ["flask"]}]}` yields
the conda sequence `["pip", "numpy"]` — the auto-inserted sentinel first,
then the listed requirement — and pip category `["flask"]`. -/
theorem claim_C3 :
    kvLookup "conda"
      (from_yaml [("dependencies", DocVal.depList
         [DepEntry.str "numpy", DepEntry.map [("pip", ["flask"])]])]
         []).dependencies.parsed = some ["pip", "numpy"]
    ∧ kvLookup "pip"
        (from_yaml [("dependencies", DocVal.depList
           [DepEntry.str "numpy", DepEntry.map [("pip", ["flask"])]])]
           []).dependencies.parsed = some ["flask"]
    ∧ (from_yaml [("dependencies", DocVal.depList
         [DepEntry.str "numpy", DepEntry.map [("pip", ["flask"])]])]
         []).dependencies.raw
       = some [DepEntry.str "pip", DepEntry.str "numpy",
               DepEntry.map [("pip", ["flask"])]] := by
  refine ⟨by decide, by decide, by decide⟩

/-! ### C5: override merge in `from_yaml` -/

/-- C5 counterexample: the claim says the reserved key `filename` is not
merged into the parsed document, but `from_yaml` merges every kwargs pair,
`filename` included. -/
theorem claim_C5_counterexample :
    ¬ (kvLookup "filename"
         (fromYamlData [("name", DocVal.str "x")] [("filename", DocVal.str "f.yml")])
       = none) := by
  decide

theorem foldl_kvSet_lookup_not_mem {α : Type} (ps : KVL α) (d : KVL α) (k : String)
    (h : k ∉ kvKeys ps) :
    kvLookup k (ps.foldl (fun d kv => kvSet kv.1 kv.2 d) d) = kvLookup k d := by
  induction ps generalizing d with
  | nil => rfl
  | cons kv rest ih =>
    obtain ⟨k', v'⟩ := kv
    simp only [kvKeys_cons, List.mem_cons] at h
    push_neg at h
    rw [List.foldl_cons, ih _ h.2, kvLookup_set_ne h.1]

theorem foldl_kvSet_lookup_mem {α : Type} (ps : KVL α) (d : KVL α) (k : String) (v : α)
    (hnd : (kvKeys ps).Nodup) (h : (k, v) ∈ ps) :
    kvLookup k (ps.foldl (fun d kv => kvSet kv.1 kv.2 d) d) = some v := by
  induction ps generalizing d with
  | nil => simp at h
  | cons kv rest ih =>
    obtain ⟨k', v'⟩ := kv
    simp only [kvKeys_cons, List.nodup_cons] at hnd
    rcases List.mem_cons.mp h with heq | hrest
    · obtain ⟨hk, hv⟩ := Prod.mk.injEq .. ▸ heq
      subst hk; subst hv
      rw [List.foldl_cons, foldl_kvSet_lookup_not_mem _ _ _ hnd.1,
          kvLookup_set_self]
    · exact List.foldl_cons .. ▸ ih (kvSet k' v' d) hnd.2 hrest

/-- C5 (amended): every caller override pair — the reserved `filename` key
included — is merged into the parsed document, overwriting same-named keys:
each kwargs binding is looked up in the merged mapping. -/
theorem claim_C5 (doc kwargs : Doc) (hnd : (kvKeys kwargs).Nodup) (k : String)
    (v : DocVal) (h : (k, v) ∈ kwargs) :
    kvLookup k (fromYamlData doc kwargs) = some v :=
  foldl_kvSet_lookup_mem kwargs (validate_keys doc) k v hnd h

/-- Witness for C5: merging `filename` into a one-key document. -/
theorem claim_C5_witness :
    kvLookup "filename"
      (fromYamlData [("name", DocVal.str "x")] [("filename", DocVal.str "f.yml")])
      = some (DocVal.str "f.yml") :=
  claim_C5 [("name", DocVal.str "x")] [("filename", DocVal.str "f.yml")]
    (by decide) "filename" (DocVal.str "f.yml") (by decide)

/-! ### C10: default construction -/

/-- C10: constructing an `Environment` with `channels=None` stores the empty
list, and `dependencies=None` parses to the empty categorized view (no
`conda` key); `add_channels`, `remove_channels` and `to_dict` then operate
on the defaults as usual. -/
theorem claim_C10 :
    (∀ (name filename pfx : Option String) (vars : Option Vars),
       (Environment.make name filename none none pfx vars).channels = []
       ∧ (Environment.make name filename none none pfx vars).dependencies.parsed = []
       ∧ kvLookup "conda"
           (Environment.make name filename none none pfx vars).dependencies.parsed = none)
    ∧ (∀ cs, ((Environment.make none none none none none
         none).add_channels cs).channels = unique cs)
    ∧ (Environment.make none none none none none none).remove_channels.channels = []
    ∧ (Environment.make none none none none none none).to_dict = [("name", DocVal.null)] := by
  refine ⟨fun name filename pfx vars => ⟨rfl, rfl, rfl⟩, fun cs => ?_, rfl, by decide⟩
  simp [Environment.add_channels, Environment.make]

/-! ### C7: live-state rendering -/

theorem insertByName_eq_orderedInsert (x : PackageRecord) (l : List PackageRecord) :
    insertByName x l
      = List.orderedInsert (fun a b => a.name ≤ b.name) x l := by
  induction l with
  | nil => rfl
  | cons y ys ih =>
    rw [insertByName, List.orderedInsert]
    by_cases h : y.name < x.name
    · rw [if_pos h, if_neg (by simpa using h), ih]
    · rw [if_neg h, if_pos (by simpa using h)]

theorem sortByName_eq_insertionSort (l : List PackageRecord) :
    sortByName l = List.insertionSort (fun a b => a.name ≤ b.name) l := by
  induction l with
  | nil => rfl
  | cons x xs ih =>
    rw [sortByName, List.insertionSort, ih, insertByName_eq_orderedInsert]

theorem sortByName_sorted (l : List PackageRecord) :
    List.Pairwise (fun a b => a.name ≤ b.name) (sortByName l) := by
  rw [sortByName_eq_insertionSort]
  haveI : IsTotal PackageRecord (fun a b => a.name ≤ b.name) :=
    ⟨fun a b => le_total a.name b.name⟩
  haveI : IsTrans PackageRecord (fun a b => a.name ≤ b.name) :=
    ⟨fun a b c hab hbc => le_trans hab hbc⟩
  exact List.sorted_insertionSort _ l

theorem sortByName_perm (l : List PackageRecord) :
    (sortByName l).Perm l := by
  rw [sortByName_eq_insertionSort]
  exact List.perm_insertionSort _ l

/-- C7: `from_environment` (with `from_history` unset) renders the conda-side
records — grouped as untyped, `NOARCH_GENERIC`, `NOARCH_PYTHON` — as
`name=version` (`no_builds`) or `name=version=build` strings in order sorted
by name, and, exactly when pip-side records exist, appends one single mapping
entry `{pip: [name==version, ...]}`, also sorted by name. -/
theorem claim_C7 (name : Option String) (pfx : String) (precs : List PackageRecord)
    (no_builds ignore_channels : Bool) (ctx : List String) (venv : Vars) :
    (from_environment name pfx precs no_builds ignore_channels ctx venv
        false []).dependencies.raw
      = some ((sortByName (condaGroup precs)).map
            (fun a => DepEntry.str (renderConda no_builds a))
          ++ (if sortByName (pipGroup precs) = [] then []
              else [DepEntry.map [("pip", (sortByName (pipGroup precs)).map renderPip)]]))
    ∧ List.Pairwise (fun a b => a.name ≤ b.name) (sortByName (condaGroup precs))
    ∧ (sortByName (condaGroup precs)).Perm (condaGroup precs)
    ∧ List.Pairwise (fun a b => a.name ≤ b.name) (sortByName (pipGroup precs))
    ∧ (sortByName (pipGroup precs)).Perm (pipGroup precs) := by
  refine ⟨?_, sortByName_sorted _, sortByName_perm _, sortByName_sorted _,
    sortByName_perm _⟩
  rw [from_environment]
  by_cases hp : sortByName (pipGroup precs) = [] <;>
    simp [hp, Environment.make, Dependencies.ofRaw]

/-! ### C1: serialization round-trip -/

theorem kvNodup_setPairs {α : Type} (m : KVL α) (d : KVL α)
    (hnd : (kvKeys d).Nodup) : (kvKeys (kvSetPairs m d)).Nodup := by
  induction m generalizing d with
  | nil => exact hnd
  | cons kv rest ih => exact ih _ (kvNodup_set kv.1 kv.2 d hnd)

theorem kvNodup_depStep (e : DepEntry) (d : KVL (List String))
    (hnd : (kvKeys d).Nodup) : (kvKeys (depStep d e)).Nodup := by
  cases e with
  | str s => exact kvNodup_modify _ _ _ hnd
  | map m => exact kvNodup_setPairs m d hnd

theorem kvNodup_runDeps (es : List DepEntry) (d : KVL (List String))
    (hnd : (kvKeys d).Nodup) : (kvKeys (runDeps es d)).Nodup := by
  induction es generalizing d with
  | nil => exact hnd
  | cons e rest ih => exact ih _ (kvNodup_depStep e d hnd)

/-- C4 counterexample: on raw `[{pip: []}]` the claim predicts the `pip` key
is dropped with no sentinel added (categorized view `{conda: []}`), but the
sentinel append is not an `else` branch: the code still appends `'pip'` to
the conda sequence. -/
theorem claim_C4_counterexample :
    (Dependencies.ofRaw (some [DepEntry.map [("pip", [])]])).parsed
      = [("conda", ["pip"])]
    ∧ [("conda", ["pip"])] ≠ ([("conda", [])] : KVL (List String)) :=
  ⟨by decide, by decide⟩

/-- C4 (amended): when after the main pass the `pip` key is present with an
empty sequence, the key is dropped — and then, in either case, the sentinel
`'pip'` is still appended to the conda sequence unless some existing conda
requirement's parsed name equals `pip` (the append is not an `else` of the
drop). -/
theorem claim_C4 (e : DepEntry) (es : List DepEntry)
    (hpip : kvLookup "pip" (runDeps (e :: es) [("conda", [])]) = some []) :
    kvLookup "pip" (Dependencies.ofRaw (some (e :: es))).parsed = none
    ∧ (((kvLookup "conda" (runDeps (e :: es) [("conda", [])])).getD []).any
         (fun s => matchSpecName s == "pip") = false →
       kvLookup "conda" (Dependencies.ofRaw (some (e :: es))).parsed
         = (kvLookup "conda" (runDeps (e :: es) [("conda", [])])).map
             (fun v => v ++ ["pip"]))
    ∧ (((kvLookup "conda" (runDeps (e :: es) [("conda", [])])).getD []).any
         (fun s => matchSpecName s == "pip") = true →
       kvLookup "conda" (Dependencies.ofRaw (some (e :: es))).parsed
         = kvLookup "conda" (runDeps (e :: es) [("conda", [])])) := by
  have hparsed : (Dependencies.ofRaw (some (e :: es))).parsed
      = pipFix (runDeps (e :: es) [("conda", [])]) := rfl
  have hndM : (kvKeys (runDeps (e :: es) [("conda", [])])).Nodup :=
    kvNodup_runDeps _ _ (by simp)
  have hmem : "pip" ∈ kvKeys (runDeps (e :: es) [("conda", [])]) := by
    by_contra h
    rw [(kvLookup_eq_none_iff _ _).2 h] at hpip
    cases hpip
  have hcondaE : kvLookup "conda"
      (kvErase "pip" (runDeps (e :: es) [("conda", [])]))
      = kvLookup "conda" (runDeps (e :: es) [("conda", [])]) :=
    kvLookup_erase_ne (by decide) _
  rw [hparsed, pipFix, if_pos hmem]
  simp only [if_pos hpip, hcondaE]
  by_cases hany : ((kvLookup "conda" (runDeps (e :: es) [("conda", [])])).getD []).any
      (fun s => matchSpecName s == "pip") = true
  · rw [if_pos hany]
    refine ⟨kvLookup_erase_self _ _ hndM, fun hfalse => ?_, fun _ => hcondaE⟩
    rw [hany] at hfalse
    cases hfalse
  · rw [if_neg hany]
    refine ⟨?_, fun _ => ?_, fun htrue => absurd htrue hany⟩
    · rw [kvLookup_modify_ne (by decide), kvLookup_erase_self _ _ hndM]
    · rw [kvLookup_modify_self, hcondaE]

/-- Witness for C4: raw `[{pip: []}, "x"]` has an empty `pip` key after the
main pass, the key is dropped, and the sentinel lands at the end of conda. -/
theorem claim_C4_witness :
    kvLookup "pip" (Dependencies.ofRaw
        (some [DepEntry.map [("pip", [])], DepEntry.str "x"])).parsed = none
    ∧ kvLookup "conda" (Dependencies.ofRaw
        (some [DepEntry.map [("pip", [])], DepEntry.str "x"])).parsed
      = some ["x", "pip"] := by
  have h := claim_C4 (DepEntry.map [("pip", [])]) [DepEntry.str "x"] (by decide)
  refine ⟨h.1, ?_⟩
  have h2 := h.2.1 (by decide)
  rw [h2]
  decide

/-! ### C9: `parse` re-derivation machinery -/

/-- The keys one mapping entry appends to a dictionary whose key set is
`seen`, in first-binding order. -/
def pairsNewKeys {α : Type} (seen : List String) : KVL α → List String
  | [] => []
  | (k, _) :: ms =>
    if k ∈ seen then pairsNewKeys seen ms else k :: pairsNewKeys (k :: seen) ms

/-- The keys the main pass appends to a dictionary whose key set is `seen`,
in first-binding order. -/
def newKeys (seen : List String) : List DepEntry → List String
  | [] => []
  | DepEntry.str _ :: rest => newKeys seen rest
  | DepEntry.map m :: rest =>
    pairsNewKeys seen m ++ newKeys (seen ++ pairsNewKeys seen m) rest

theorem pairsNewKeys_congr {α : Type} (m : KVL α) :
    ∀ s1 s2 : List String, (∀ j, j ∈ s1 ↔ j ∈ s2) →
      pairsNewKeys s1 m = pairsNewKeys s2 m := by
  induction m with
  | nil => intros; rfl
  | cons kv ms ih =>
    intro s1 s2 hs
    obtain ⟨k, v⟩ := kv
    simp only [pairsNewKeys]
    by_cases h : k ∈ s1
    · rw [if_pos h, if_pos ((hs k).1 h)]
      exact ih s1 s2 hs
    · rw [if_neg h, if_neg (fun h2 => h ((hs k).2 h2))]
      exact congrArg _ (ih (k :: s1) (k :: s2) (fun j => by simp [hs j]))

theorem newKeys_congr (es : List DepEntry) :
    ∀ s1 s2 : List String, (∀ j, j ∈ s1 ↔ j ∈ s2) →
      newKeys s1 es = newKeys s2 es := by
  induction es with
  | nil => intros; rfl
  | cons e rest ih =>
    intro s1 s2 hs
    cases e with
    | str s =>
      simp only [newKeys]
      exact ih s1 s2 hs
    | map m =>
      simp only [newKeys]
      rw [pairsNewKeys_congr m s1 s2 hs,
        ih (s1 ++ pairsNewKeys s2 m) (s2 ++ pairsNewKeys s2 m) (fun j => by
          simp [hs j])]

